import Mathlib

/-!
Verification of the soda-can repository: a shallow embedding in Lean 4 of the
procedural mesh builder (`circle`, `cylinder`, `add_truncated_cone`,
`add_circle_fill`, `soda_can`), the normal calculator (`calc_normals`), the
OBJ face-index resolution and vertex-deduplication indexer (`get_idx`) of
`tools.js`, and the asynchronous material/texture dependency resolver of
`load_obj`/`load_mtl`, together with theorems settling the specification
claims about them.

Conventions: JS numbers are embedded as the elements of an arbitrary field
`K` (instantiated with `ℝ` where a theorem needs properties of the real
trigonometric or square-root functions, and with `ℚ` where a witness needs
decidable evaluation); JS arrays are Lean lists, with `push` as append; the
JS `Math` object and the external MV.js vector library are interfaces of the
program, passed in explicitly or modelled from their documentation. -/

namespace SodaCan

/-! ## Mesh builder (source: `src/unnamed/part_000`, lines 336-437)

The mesh code calls the browser `Math` library (`Math.PI`, `Math.cos`,
`Math.sin`), an external collaborator of the program; it is embedded as an
explicit record of an arbitrary constant `pi` and arbitrary functions
`cos`/`sin`, instantiated with the real functions where a theorem needs
their properties. -/

/-- Interface for the JS `Math` library used by the mesh builder. -/
structure MathLib (K : Type) where
  pi : K
  cos : K → K
  sin : K → K

variable {K : Type} [Field K]

/-- A 4-component vector (MV.js `vec4`). -/
abbrev Vec4 (K : Type) := K × K × K × K

/-- Constructor matching MV.js `vec4(x, y, z, w)`. -/
def vec4 (x y z w : K) : Vec4 K := (x, y, z, w)

/-- Embedding of `circle(c, r, n, verts)` (part_000 lines 336-344): pushes `n`
vertices onto `verts`, the `i`-th being
`vec4(c[0]+cos(i*theta)*r, c[2], c[1]+sin(i*theta)*r, 1)` with
`theta = 2*PI/n`.  The center argument is the triple of the three components
of `c` that the source reads. -/
def circle (M : MathLib K) (c : K × K × K) (r : K) (n : ℕ) (verts : List (Vec4 K)) :
    List (Vec4 K) :=
  let theta := 2 * M.pi / n
  verts ++ (List.range n).map (fun (i : ℕ) =>
    vec4 (c.1 + M.cos ((i : K) * theta) * r) c.2.2 (c.2.1 + M.sin ((i : K) * theta) * r) 1)

/-- Embedding of `cylinder(c, r, n, h, verts, inds)` (part_000 lines 350-364):
two circles in the planes `+h` and `-h`, the strip index pairs
`[i+offset, i+n+offset]` for `i < n`, the repeated first pair
`[offset, offset+n]`, and the final repeated index `offset+n`. -/
def cylinder (M : MathLib K) (c : K × K) (r : K) (n : ℕ) (h : K)
    (verts : List (Vec4 K)) (inds : List ℕ) : List (Vec4 K) × List ℕ :=
  let offset := verts.length
  let verts1 := circle M (c.1, c.2, h) r n verts
  let verts2 := circle M (c.1, c.2, -h) r n verts1
  let inds1 := inds ++ (List.range n).flatMap (fun i => [i + offset, i + n + offset])
  (verts2, inds1 ++ [offset, offset + n, offset + n])

/-- Embedding of `add_truncated_cone(mult_1, mult_2, n, offset, inds)`
(part_000 lines 373-389). -/
def add_truncated_cone (mult_1 mult_2 n offset : ℕ) (inds : List ℕ) : List ℕ :=
  inds ++ [mult_1 * n + offset]
    ++ (List.range n).flatMap (fun i => [i + mult_1 * n + offset, i + mult_2 * n + offset])
    ++ [mult_1 * n + offset, mult_2 * n + offset, mult_2 * n + offset]

/-- Embedding of `add_circle_fill(n, offset, inds, reverse)` (part_000 lines
399-417).  The JS loop `for (i = 0; i < n / 2; i++)` over float division
runs for `i = 0, …, ⌈n/2⌉-1`, i.e. `(n+1)/2` iterations in integer terms. -/
def add_circle_fill (n offset : ℕ) (inds : List ℕ) (reverse : Bool) : List ℕ :=
  inds ++ [offset, offset]
    ++ (if reverse = true then
          (List.range ((n+1)/2)).flatMap (fun i => [n - i - 1 + offset, i + 1 + offset])
        else
          (List.range ((n+1)/2)).flatMap (fun i => [i + 1 + offset, n - i - 1 + offset]))

/-- Embedding of `soda_can(c, r1, r2, n, h, verts, inds)` (part_000 lines
424-437): top inner circle, cylinder of half-height `h - 2*(r1-r2)`, bottom
inner circle, the two truncated cones, and the two circle fills (the second
with `reverse = true`). -/
def soda_can (M : MathLib K) (c : K × K) (r1 r2 : K) (n : ℕ) (h : K)
    (verts : List (Vec4 K)) (inds : List ℕ) : List (Vec4 K) × List ℕ :=
  let offset := verts.length
  let verts1 := circle M (c.1, c.2, h) r2 n verts
  let p := cylinder M c r1 n (h - 2 * (r1 - r2)) verts1 inds
  let verts3 := circle M (c.1, c.2, -h) r2 n p.1
  let inds2 := add_truncated_cone 0 1 n offset p.2
  let inds3 := add_truncated_cone 2 3 n offset inds2
  let inds4 := add_circle_fill n offset inds3 false
  let inds5 := add_circle_fill n (offset + 3 * n) inds4 true
  (verts3, inds5)

/-! Helper lemmas about the index-pair strips emitted by the mesh builder. -/

theorem flatMap_pair_eq (f g : ℕ → ℕ) (n : ℕ) :
    (List.range n).flatMap (fun i => [f i, g i]) =
      (List.range (2*n)).map (fun p => if p % 2 = 0 then f (p/2) else g (p/2)) := by
  induction n with
  | zero => rfl
  | succ m ih =>
    have h2 : 2 * (m+1) = (2*m) + 1 + 1 := by ring
    rw [List.range_succ, List.flatMap_append, ih, h2, List.range_succ, List.range_succ]
    have e0 : (2*m) % 2 = 0 := by omega
    have e1 : (2*m) / 2 = m := by omega
    have e2 : (2*m+1) % 2 = 1 := by omega
    have e3 : (2*m+1) / 2 = m := by omega
    simp [e0, e1, e2, e3]

theorem length_flatMap_pair (f g : ℕ → ℕ) (n : ℕ) :
    ((List.range n).flatMap (fun i => [f i, g i])).length = 2 * n := by
  rw [flatMap_pair_eq]; simp

theorem getElem?_flatMap_pair (f g : ℕ → ℕ) (n : ℕ) (i : ℕ) (hi : i < n) :
    ((List.range n).flatMap (fun i => [f i, g i]))[2*i]? = some (f i) ∧
      ((List.range n).flatMap (fun i => [f i, g i]))[2*i+1]? = some (g i) := by
  rw [flatMap_pair_eq]
  have e0 : (2*i) % 2 = 0 := by omega
  have e1 : (2*i) / 2 = i := by omega
  have e2 : (2*i+1) % 2 = 1 := by omega
  have e3 : (2*i+1) / 2 = i := by omega
  rw [List.getElem?_map, List.getElem?_map, List.getElem?_range (by omega),
    List.getElem?_range (by omega)]
  simp [e0, e1, e2, e3]

theorem mem_flatMap_pair (f g : ℕ → ℕ) (n : ℕ) (x : ℕ) :
    x ∈ (List.range n).flatMap (fun i => [f i, g i]) ↔
      ∃ i, i < n ∧ (x = f i ∨ x = g i) := by
  simp only [List.mem_flatMap, List.mem_range, List.mem_cons, List.mem_singleton,
    List.not_mem_nil, or_false]

@[simp]
theorem circle_length (M : MathLib K) (c : K × K × K) (r : K) (n : ℕ)
    (verts : List (Vec4 K)) : (circle M c r n verts).length = verts.length + n := by
  simp [circle]

theorem cylinder_verts_length (M : MathLib K) (c : K × K) (r : K) (n : ℕ) (h : K)
    (verts : List (Vec4 K)) (inds : List ℕ) :
    (cylinder M c r n h verts inds).1.length = verts.length + 2 * n := by
  simp [cylinder]; ring

theorem soda_can_verts_length (M : MathLib K) (c : K × K) (r1 r2 : K) (n : ℕ)
    (h : K) (verts : List (Vec4 K)) (inds : List ℕ) :
    (soda_can M c r1 r2 n h verts inds).1.length = verts.length + 4 * n := by
  simp [soda_can, cylinder]; ring

theorem getD_append_map_range {α : Type} (l : List α) (f : ℕ → α) (n i : ℕ)
    (hi : i < n) (d : α) :
    (l ++ (List.range n).map f).getD (l.length + i) d = f i := by
  rw [List.getD_eq_getElem?_getD, List.getElem?_append_right (by omega),
    Nat.add_sub_cancel_left, List.getElem?_map, List.getElem?_range hi]
  rfl

/-- C6: for every `n ≥ 3`, center and radius, `circle` appends exactly `n`
vertices; the `i`-th appended vertex is the point at angle `i*(2π/n)`
(starting from angle 0) in the circle's plane, and — `cos`/`sin` satisfying
the Pythagorean identity and `r ≥ 0` — it lies at Euclidean distance `r`
from the circle's center lifted into that plane (the point
`(c[0], c[2], c[1])` in output coordinates). -/
theorem circle_spec (M : MathLib ℝ) (hM : ∀ θ, M.cos θ ^ 2 + M.sin θ ^ 2 = 1)
    (c : ℝ × ℝ × ℝ) (r : ℝ) (hr : 0 ≤ r) (n : ℕ) (hn : 3 ≤ n)
    (verts : List (Vec4 ℝ)) :
    (circle M c r n verts).length = verts.length + n ∧
    ∀ i < n,
      (circle M c r n verts).getD (verts.length + i) (vec4 0 0 0 0) =
        vec4 (c.1 + M.cos ((i : ℝ) * (2 * M.pi / n)) * r) c.2.2
             (c.2.1 + M.sin ((i : ℝ) * (2 * M.pi / n)) * r) 1 ∧
      Real.sqrt (((c.1 + M.cos ((i : ℝ) * (2 * M.pi / n)) * r) - c.1) ^ 2 +
                 (c.2.2 - c.2.2) ^ 2 +
                 ((c.2.1 + M.sin ((i : ℝ) * (2 * M.pi / n)) * r) - c.2.1) ^ 2) = r := by
  refine ⟨circle_length M c r n verts, fun i hi => ⟨?_, ?_⟩⟩
  · exact getD_append_map_range verts _ n i hi _
  · have key : ((c.1 + M.cos ((i : ℝ) * (2 * M.pi / n)) * r) - c.1) ^ 2 +
        (c.2.2 - c.2.2) ^ 2 +
        ((c.2.1 + M.sin ((i : ℝ) * (2 * M.pi / n)) * r) - c.2.1) ^ 2 = r ^ 2 := by
      have hp := hM ((i : ℝ) * (2 * M.pi / n))
      nlinarith [hp]
    rw [key, Real.sqrt_sq hr]

theorem circle_spec_witness :
    (circle ⟨Real.pi, Real.cos, Real.sin⟩ ((0 : ℝ), 0, 0) 1 3 []).length = 0 + 3 ∧
    Real.sqrt ((((0 : ℝ) + Real.cos ((0 : ℕ) * (2 * Real.pi / (3 : ℕ))) * 1) - 0) ^ 2 +
               ((0 : ℝ) - 0) ^ 2 +
               (((0 : ℝ) + Real.sin ((0 : ℕ) * (2 * Real.pi / (3 : ℕ))) * 1) - 0) ^ 2) = 1 :=
  ⟨(circle_spec ⟨Real.pi, Real.cos, Real.sin⟩
      (fun θ => Real.cos_sq_add_sin_sq θ) (0, 0, 0) 1 zero_le_one 3 (by norm_num) []).1,
   ((circle_spec ⟨Real.pi, Real.cos, Real.sin⟩
      (fun θ => Real.cos_sq_add_sin_sq θ) (0, 0, 0) 1 zero_le_one 3 (by norm_num) []).2
      0 (by norm_num)).2⟩

/-- C5: `cylinder` appends two circles of `n` vertices each, placed in the
planes `+h` and `-h`, then the index pairs `[top_i, bottom_i]`
(`top_i = offset + i`, `bottom_i = offset + n + i` relative to the starting
offset) for `i < n`, then the repeated first pair `[top_0, bottom_0]`, then
one extra repeated index `bottom_0`, for a total of `2n+3` appended
indices. -/
theorem cylinder_spec (M : MathLib K) (c : K × K) (r : K) (n : ℕ) (hn : 3 ≤ n)
    (h : K) (verts : List (Vec4 K)) (inds : List ℕ) :
    (cylinder M c r n h verts inds).1.length = verts.length + 2 * n
  ∧ (∀ i < n,
      ((cylinder M c r n h verts inds).1.getD (verts.length + i) (vec4 0 0 0 0)).2.1 = h ∧
      ((cylinder M c r n h verts inds).1.getD (verts.length + n + i) (vec4 0 0 0 0)).2.1 = -h)
  ∧ (cylinder M c r n h verts inds).2.length = inds.length + (2 * n + 3)
  ∧ (cylinder M c r n h verts inds).2.take inds.length = inds
  ∧ (∀ i < n,
      (cylinder M c r n h verts inds).2.getD (inds.length + 2*i) 0 = verts.length + i ∧
      (cylinder M c r n h verts inds).2.getD (inds.length + (2*i+1)) 0 = verts.length + n + i)
  ∧ (cylinder M c r n h verts inds).2.getD (inds.length + 2*n) 0 = verts.length
  ∧ (cylinder M c r n h verts inds).2.getD (inds.length + (2*n+1)) 0 = verts.length + n
  ∧ (cylinder M c r n h verts inds).2.getD (inds.length + (2*n+2)) 0 = verts.length + n := by
  have hpairlen := length_flatMap_pair (fun i => i + verts.length)
    (fun i => i + n + verts.length) n
  constructor
  · exact cylinder_verts_length M c r n h verts inds
  constructor
  · intro i hi
    constructor
    · show ((circle M (c.1, c.2, h) r n verts ++ _).getD (verts.length + i) _).2.1 = h
      rw [List.getD_eq_getElem?_getD,
        List.getElem?_append_left (by simp; omega),
        ← List.getD_eq_getElem?_getD _ _ (vec4 0 0 0 0)]
      show ((verts ++ _).getD (verts.length + i) _).2.1 = h
      rw [getD_append_map_range verts _ n i hi]
      rfl
    · show ((circle M (c.1, c.2, h) r n verts ++ _).getD (verts.length + n + i) _).2.1 = -h
      have hl : (circle M (c.1, c.2, h) r n verts).length = verts.length + n := by simp
      rw [List.getD_eq_getElem?_getD, List.getElem?_append_right (by omega), hl]
      have : verts.length + n + i - (verts.length + n) = i := by omega
      rw [this, List.getElem?_map, List.getElem?_range hi]
      rfl
  · have h2 : (cylinder M c r n h verts inds).2 =
        inds ++ (((List.range n).flatMap fun i => [i + verts.length, i + n + verts.length]) ++
          [verts.length, verts.length + n, verts.length + n]) := by
      show (inds ++ _) ++ _ = _
      rw [List.append_assoc]
    refine ⟨?_, ?_, ?_, ?_, ?_, ?_⟩
    · rw [h2]; simp [hpairlen]
    · rw [h2]; exact List.take_left inds _
    · intro i hi
      have hget := getElem?_flatMap_pair (fun i => i + verts.length)
        (fun i => i + n + verts.length) n i hi
      constructor
      · rw [h2, List.getD_eq_getElem?_getD,
          List.getElem?_append_right (by omega), Nat.add_sub_cancel_left,
          List.getElem?_append_left (by omega), hget.1]
        simp only [Option.getD_some]; omega
      · rw [h2, List.getD_eq_getElem?_getD,
          List.getElem?_append_right (by omega), Nat.add_sub_cancel_left,
          List.getElem?_append_left (by omega), hget.2]
        simp only [Option.getD_some]; omega
    · rw [h2, List.getD_eq_getElem?_getD,
        List.getElem?_append_right (by omega), Nat.add_sub_cancel_left,
        List.getElem?_append_right (by omega : _ ≤ 2*n), hpairlen]
      have he : 2*n - 2*n = 0 := by omega
      rw [he]; rfl
    · rw [h2, List.getD_eq_getElem?_getD,
        List.getElem?_append_right (by omega), Nat.add_sub_cancel_left,
        List.getElem?_append_right (by omega : _ ≤ 2*n+1), hpairlen]
      have he : 2*n+1 - 2*n = 1 := by omega
      rw [he]; rfl
    · rw [h2, List.getD_eq_getElem?_getD,
        List.getElem?_append_right (by omega), Nat.add_sub_cancel_left,
        List.getElem?_append_right (by omega : _ ≤ 2*n+2), hpairlen]
      have he : 2*n+2 - 2*n = 2 := by omega
      rw [he]; rfl

theorem cylinder_spec_witness :
    ((cylinder (K := ℚ) ⟨0, fun _ => 0, fun _ => 0⟩ (0, 0) 1 3 1 [] []).2.length
        = 0 + (2 * 3 + 3))
  ∧ (cylinder (K := ℚ) ⟨0, fun _ => 0, fun _ => 0⟩ (0, 0) 1 3 1 [] []).2.getD (0 + 2*1) 0
        = 0 + 1 :=
  ⟨(cylinder_spec ⟨0, fun _ => 0, fun _ => 0⟩ (0, 0) 1 3 (by norm_num) 1 [] []).2.2.1,
   ((cylinder_spec ⟨0, fun _ => 0, fun _ => 0⟩ (0, 0) 1 3 (by norm_num) 1 [] []).2.2.2.2.1
      1 (by norm_num)).1⟩

/-! Bound lemmas used for the index-validity property of `soda_can`. -/

theorem add_circle_fill_bound (n offset : ℕ) (inds : List ℕ) (rev : Bool) (B : ℕ)
    (hn : 3 ≤ n) (hB : n + offset ≤ B) (hinds : ∀ x ∈ inds, x < B) :
    ∀ x ∈ add_circle_fill n offset inds rev, x < B := by
  intro x hx
  have hd : (n + 1) / 2 ≤ n - 1 := by omega
  cases rev <;>
    simp only [add_circle_fill, if_true, if_false, Bool.false_eq_true, Bool.true_eq_false,
      List.mem_append, List.mem_cons, List.not_mem_nil, or_false,
      mem_flatMap_pair] at hx <;>
  · rcases hx with (hx | rfl | rfl) | ⟨i, hi, rfl | rfl⟩
    · exact hinds x hx
    · omega
    · omega
    · omega
    · omega

theorem add_truncated_cone_bound (mult_1 mult_2 n offset : ℕ) (inds : List ℕ) (B : ℕ)
    (hn : 3 ≤ n) (h1 : mult_1 * n + n + offset ≤ B) (h2 : mult_2 * n + n + offset ≤ B)
    (hinds : ∀ x ∈ inds, x < B) :
    ∀ x ∈ add_truncated_cone mult_1 mult_2 n offset inds, x < B := by
  intro x hx
  simp only [add_truncated_cone, List.mem_append, List.mem_cons, List.not_mem_nil,
    or_false, mem_flatMap_pair] at hx
  rcases hx with ((hx | rfl) | ⟨i, hi, rfl | rfl⟩) | rfl | rfl | rfl
  · exact hinds x hx
  all_goals omega

theorem cylinder_inds_bound (M : MathLib K) (c : K × K) (r : K) (n : ℕ) (h : K)
    (verts : List (Vec4 K)) (inds : List ℕ) (B : ℕ)
    (hn : 3 ≤ n) (hB : verts.length + 2 * n ≤ B) (hinds : ∀ x ∈ inds, x < B) :
    ∀ x ∈ (cylinder M c r n h verts inds).2, x < B := by
  intro x hx
  simp only [cylinder, List.mem_append, List.mem_cons, List.not_mem_nil,
    or_false, mem_flatMap_pair] at hx
  rcases hx with (hx | ⟨i, hi, rfl | rfl⟩) | rfl | rfl | rfl
  · exact hinds x hx
  all_goals omega

/-- C2: for every `n ≥ 3` and radii `0 < r2 < r1`, every entry of the index
sequence produced by `soda_can` (appended to initially empty `verts` and
`inds` arrays) is a valid vertex index: `idx < verts.length` for the
produced vertex array. -/
theorem soda_can_inds_valid {F : Type} [LinearOrderedField F]
    (M : MathLib F) (c : F × F) (r1 r2 : F) (n : ℕ)
    (h : F) (hn : 3 ≤ n) (hr2 : 0 < r2) (hr12 : r2 < r1) :
    ∀ idx ∈ (soda_can M c r1 r2 n h [] []).2,
      idx < (soda_can M c r1 r2 n h [] []).1.length := by
  have hv : (soda_can M c r1 r2 n h [] []).1.length = 4 * n := by
    rw [soda_can_verts_length]; simp
  rw [hv]
  show ∀ idx ∈ add_circle_fill n (List.length [] + 3 * n) _ true, idx < 4 * n
  apply add_circle_fill_bound _ _ _ _ _ hn (by simp; omega)
  apply add_circle_fill_bound _ _ _ _ _ hn (by simp; omega)
  apply add_truncated_cone_bound _ _ _ _ _ _ hn (by simp; omega) (by simp; omega)
  apply add_truncated_cone_bound _ _ _ _ _ _ hn (by simp; omega) (by simp; omega)
  apply cylinder_inds_bound _ _ _ _ _ _ _ _ hn (by simp; omega)
  intro x hx
  simp at hx

theorem soda_can_inds_valid_witness :
    (3 ≤ 3 ∧ (0 : ℚ) < 1/2 ∧ (1/2 : ℚ) < 1) ∧
    ∀ idx ∈ (soda_can (K := ℚ) ⟨0, fun _ => 0, fun _ => 0⟩ (0, 0) 1 (1/2) 3 1 [] []).2,
      idx < (soda_can (K := ℚ) ⟨0, fun _ => 0, fun _ => 0⟩ (0, 0) 1 (1/2) 3 1 [] []).1.length :=
  ⟨⟨le_refl 3, by norm_num, by norm_num⟩,
   soda_can_inds_valid ⟨0, fun _ => 0, fun _ => 0⟩ (0, 0) 1 (1/2) 3 1
     (le_refl 3) (by norm_num) (by norm_num)⟩

/-! ## Normal Calculator (source: `src/tools.js`, lines 124-152)

`calc_normals(verts, inds, strip, skip)` copies and sorts the skip list and
appends a `-1` sentinel, accumulates a face normal per non-skipped,
non-degenerate triangle (with alternating edge order on odd strip
positions), and finally normalizes every accumulator.  The MV.js vector
functions `subtract`, `cross` (first three components, appended `w = 0`) and
`add` are embedded directly; `normalize` is an external MV.js function and
is passed in as a parameter `nrm` (instantiated by `normalize4` below where
a claim depends on its behaviour). -/

/-- A 3-component vector (MV.js `vec3`). -/
abbrev Vec3 (K : Type) := K × K × K

/-- The zero 4-vector `vec4(0,0,0,0)` used to initialize accumulators. -/
def z4 : Vec4 K := (0, 0, 0, 0)

/-- Embedding of `ensure_vec4(v, 1)` (tools.js 111-116) in the non-throwing
cases: a vertex with components `(x, y, z)` becomes `(x, y, z, 1)`. -/
def ensure_vec4 (v : Vec3 K) : Vec4 K := (v.1, v.2.1, v.2.2, 1)

/-- MV.js `add` on 4-component vectors. -/
def add4 (u v : Vec4 K) : Vec4 K :=
  (u.1 + v.1, u.2.1 + v.2.1, u.2.2.1 + v.2.2.1, u.2.2.2 + v.2.2.2)

/-- MV.js `subtract` on 4-component vectors. -/
def sub4 (u v : Vec4 K) : Vec4 K :=
  (u.1 - v.1, u.2.1 - v.2.1, u.2.2.1 - v.2.2.1, u.2.2.2 - v.2.2.2)

/-- MV.js `cross` of the first three components, accumulated with `w = 0`. -/
def cross4 (u v : Vec4 K) : Vec4 K :=
  (u.2.1 * v.2.2.1 - u.2.2.1 * v.2.1,
   u.2.2.1 * v.1 - u.1 * v.2.2.1,
   u.1 * v.2.1 - u.2.1 * v.1,
   0)

/-- Embedding of lines 129-130 applied to the local copy of `skip`: sort
ascending (the JS comparator `a - b`), then push the `-1` sentinel. -/
def sortSkip (skip : List ℤ) : List ℤ :=
  (List.insertionSort (· ≤ ·) skip) ++ [-1]

/-- The loop positions `i = 0, inc, 2*inc, … < inds.length - 2` of the
triangle loop (line 138). -/
def tri_positions (len inc : ℕ) : List ℕ :=
  (List.range (len - 2)).filter (fun i => i % inc = 0)

/-- One iteration of the triangle loop (tools.js 138-147), acting on the
state (normal accumulators, skip cursor). -/
def norm_step (verts : List (Vec3 K)) (inds : List ℕ) (strip : Bool)
    (skipArr : List ℤ) (st : List (Vec4 K) × ℕ) (i : ℕ) : List (Vec4 K) × ℕ :=
  if skipArr.getD st.2 (-1) = (i : ℤ) then (st.1, st.2 + 1)
  else
    let j := inds.getD i 0
    let k := inds.getD (i+1) 0
    let l := inds.getD (i+2) 0
    if j = k ∨ k = l ∨ l = j then st
    else
      let a := ensure_vec4 (verts.getD j (0, 0, 0))
      let b := ensure_vec4 (verts.getD k (0, 0, 0))
      let c := ensure_vec4 (verts.getD l (0, 0, 0))
      let face_norm :=
        cross4 (if strip = true ∧ i % 2 ≠ 0 then sub4 a b else sub4 b a) (sub4 a c)
      let ns0 := st.1
      let ns1 := ns0.set j (add4 (ns0.getD j z4) face_norm)
      let ns2 := ns1.set k (add4 (ns1.getD k z4) face_norm)
      let ns3 := ns2.set l (add4 (ns2.getD l z4) face_norm)
      (ns3, st.2)

/-- The accumulation phase of `calc_normals` (tools.js 126-147): accumulators
start at `vec4(0,0,0,0)` and the triangle loop runs over all positions. -/
def accumulate (verts : List (Vec3 K)) (inds : List ℕ) (strip : Bool)
    (skip : List ℤ) : List (Vec4 K) :=
  ((tri_positions inds.length (if strip = true then 1 else 3)).foldl
      (norm_step verts inds strip (sortSkip skip))
      (List.replicate verts.length z4, 0)).1

/-- Embedding of `calc_normals(verts, inds, strip, skip)` (tools.js 124-152):
accumulation followed by the final normalization pass (line 150), with the
external MV.js `normalize` passed in as `nrm`. -/
def calc_normals (nrm : Vec4 K → Vec4 K) (verts : List (Vec3 K)) (inds : List ℕ)
    (strip : Bool) (skip : List ℤ) : List (Vec4 K) :=
  (accumulate verts inds strip skip).map nrm

/-- The caller-visible argument arrays of a `calc_normals` call. -/
structure CalcArgs (K : Type) where
  verts : List (Vec3 K)
  inds : List ℕ
  skip : List ℤ

/-- Embedding of a full `calc_normals` call, tracking the caller's argument
arrays: line 129 rebinds the local `skip` to the fresh copy `skip.slice(0)`,
so the `sort` and `push(-1)` of line 130 mutate only that copy, and `verts`
and `inds` are only read; the returned `CalcArgs` are the caller's arrays
after the call returns. -/
def calc_normals_call (nrm : Vec4 K → Vec4 K) (args : CalcArgs K) (strip : Bool) :
    List (Vec4 K) × CalcArgs K :=
  let skipLocal := sortSkip args.skip
  (((tri_positions args.inds.length (if strip = true then 1 else 3)).foldl
      (norm_step args.verts args.inds strip skipLocal)
      (List.replicate args.verts.length z4, 0)).1.map nrm,
   { verts := args.verts, inds := args.inds, skip := args.skip })

/-- C10: `calc_normals` does not mutate its arguments: the caller's `verts`,
`inds` and `skip` arrays are unchanged after the call (the skip list is
copied before being sorted and before the `-1` sentinel is appended, so the
caller's skip array keeps its original order and contents); the result is a
pure function of the argument values, and — since only the sorted copy is
consumed — it is even invariant under reversing the caller's skip list. -/
theorem calc_normals_no_mutation (nrm : Vec4 K → Vec4 K) (args : CalcArgs K)
    (strip : Bool) :
    (calc_normals_call nrm args strip).2 = args
  ∧ (calc_normals_call nrm args strip).1 =
      calc_normals nrm args.verts args.inds strip args.skip
  ∧ calc_normals nrm args.verts args.inds strip args.skip.reverse =
      calc_normals nrm args.verts args.inds strip args.skip := by
  refine ⟨rfl, rfl, ?_⟩
  have hs : sortSkip args.skip.reverse = sortSkip args.skip := by
    unfold sortSkip
    congr 1
    apply List.eq_of_perm_of_sorted
      ((List.perm_insertionSort _ _).trans
        ((args.skip.reverse_perm).trans (List.perm_insertionSort _ _).symm))
      (List.sorted_insertionSort _ _) (List.sorted_insertionSort _ _)
  unfold calc_normals accumulate
  rw [hs]

/-! Properties of the normalization pass (claim C3). -/

/-- Squared Euclidean length of a 4-component vector. -/
def sqnorm4 (v : Vec4 K) : K := v.1^2 + v.2.1^2 + v.2.2.1^2 + v.2.2.2^2

/-- MV.js `scale` on 4-component vectors. -/
def scale4 (s : K) (v : Vec4 K) : Vec4 K := (s * v.1, s * v.2.1, s * v.2.2.1, s * v.2.2.2)

/-- Modelled from the spec: the external MV.js `normalize` function (not part
of this repository's sources) as the spec describes it — "normalize every
vertex accumulator to unit length (zero vectors remain zero)": the zero
vector maps to itself, any other vector is scaled by the reciprocal of its
Euclidean length. -/
noncomputable def normalize4 (v : Vec4 ℝ) : Vec4 ℝ :=
  if v = z4 then z4 else scale4 (1 / Real.sqrt (sqnorm4 v)) v

theorem sqnorm4_eq_zero_iff (v : Vec4 ℝ) : sqnorm4 v = 0 ↔ v = z4 := by
  unfold sqnorm4 z4
  constructor
  · intro h
    have h1 : v.1 = 0 := by nlinarith [sq_nonneg v.1, sq_nonneg v.2.1, sq_nonneg v.2.2.1, sq_nonneg v.2.2.2]
    have h2 : v.2.1 = 0 := by nlinarith [sq_nonneg v.1, sq_nonneg v.2.1, sq_nonneg v.2.2.1, sq_nonneg v.2.2.2]
    have h3 : v.2.2.1 = 0 := by nlinarith [sq_nonneg v.1, sq_nonneg v.2.1, sq_nonneg v.2.2.1, sq_nonneg v.2.2.2]
    have h4 : v.2.2.2 = 0 := by nlinarith [sq_nonneg v.1, sq_nonneg v.2.1, sq_nonneg v.2.2.1, sq_nonneg v.2.2.2]
    exact Prod.ext h1 (Prod.ext h2 (Prod.ext h3 h4))
  · intro h; rw [h]; norm_num

theorem sqnorm4_nonneg (v : Vec4 ℝ) : 0 ≤ sqnorm4 v := by
  unfold sqnorm4; positivity

theorem sqnorm4_scale4 (s : ℝ) (v : Vec4 ℝ) :
    sqnorm4 (scale4 s v) = s^2 * sqnorm4 v := by
  unfold sqnorm4 scale4; ring

theorem sqnorm4_normalize4 (v : Vec4 ℝ) (hv : v ≠ z4) :
    sqnorm4 (normalize4 v) = 1 := by
  have h0 : sqnorm4 v ≠ 0 := fun h => hv ((sqnorm4_eq_zero_iff v).mp h)
  rw [normalize4, if_neg hv, sqnorm4_scale4, div_pow, one_pow,
    Real.sq_sqrt (sqnorm4_nonneg v)]
  field_simp

theorem normalize4_z4 : normalize4 z4 = z4 := by rw [normalize4, if_pos rfl]

theorem getD_replicate_self {α : Type} (n v : ℕ) (a : α) :
    (List.replicate n a).getD v a = a := by
  rw [List.getD_eq_getElem?_getD]
  rcases Nat.lt_or_ge v n with hv | hv
  · rw [List.getElem?_replicate, if_pos hv]; rfl
  · rw [List.getElem?_eq_none (by simpa using hv)]; rfl

theorem tri_positions_lt (len inc : ℕ) : ∀ i ∈ tri_positions len inc, i + 2 < len := by
  intro i hi
  rw [tri_positions, List.mem_filter, List.mem_range] at hi
  omega

theorem getD_set_ne {α : Type} (l : List α) (i v : ℕ) (hne : i ≠ v) (a d : α) :
    (l.set i a).getD v d = l.getD v d := by
  rw [List.getD_eq_getElem?_getD, List.getD_eq_getElem?_getD, List.getElem?_set_ne hne]

theorem foldl_norm_step_not_mem (verts : List (Vec3 K)) (inds : List ℕ)
    (strip : Bool) (skipArr : List ℤ) (v : ℕ) (hv : v ∉ inds) :
    ∀ (L : List ℕ), (∀ i ∈ L, i + 2 < inds.length) →
      ∀ (st : List (Vec4 K) × ℕ), st.1.getD v z4 = z4 →
        ((L.foldl (norm_step verts inds strip skipArr) st).1.getD v z4 = z4) := by
  intro L
  induction L with
  | nil => intro _ st hst; exact hst
  | cons i L ih =>
    intro hL st hst
    rw [List.foldl_cons]
    refine ih (fun p hp => hL p (List.mem_cons_of_mem i hp)) _ ?_
    have hilen : i + 2 < inds.length := hL i (List.mem_cons_self i L)
    unfold norm_step
    rcases em (skipArr.getD st.2 (-1) = (i : ℤ)) with hskip | hskip
    · rw [if_pos hskip]; exact hst
    rw [if_neg hskip]
    rcases em (inds.getD i 0 = inds.getD (i+1) 0 ∨ inds.getD (i+1) 0 = inds.getD (i+2) 0 ∨
        inds.getD (i+2) 0 = inds.getD i 0) with hdeg | hdeg
    · rw [if_pos hdeg]; exact hst
    rw [if_neg hdeg]
    have hj : inds.getD i 0 ∈ inds := by
      rw [List.getD_eq_getElem?_getD, List.getElem?_eq_getElem (by omega)]
      exact List.getElem_mem _
    have hk : inds.getD (i+1) 0 ∈ inds := by
      rw [List.getD_eq_getElem?_getD, List.getElem?_eq_getElem (by omega)]
      exact List.getElem_mem _
    have hl : inds.getD (i+2) 0 ∈ inds := by
      rw [List.getD_eq_getElem?_getD, List.getElem?_eq_getElem (by omega)]
      exact List.getElem_mem _
    have hnj : inds.getD i 0 ≠ v := fun he => hv (he ▸ hj)
    have hnk : inds.getD (i+1) 0 ≠ v := fun he => hv (he ▸ hk)
    have hnl : inds.getD (i+2) 0 ≠ v := fun he => hv (he ▸ hl)
    simp only
    rw [getD_set_ne _ _ _ hnl, getD_set_ne _ _ _ hnk, getD_set_ne _ _ _ hnj]
    exact hst

theorem accumulate_not_mem (verts : List (Vec3 K)) (inds : List ℕ) (strip : Bool)
    (skip : List ℤ) (v : ℕ) (hv : v ∉ inds) :
    (accumulate verts inds strip skip).getD v z4 = z4 := by
  unfold accumulate
  exact foldl_norm_step_not_mem verts inds strip (sortSkip skip) v hv _
    (tri_positions_lt _ _) _ (getD_replicate_self _ _ _)

theorem calc_normals_getD (nrm : Vec4 K → Vec4 K) (hz : nrm z4 = z4)
    (verts : List (Vec3 K)) (inds : List ℕ) (strip : Bool) (skip : List ℤ) (v : ℕ) :
    (calc_normals nrm verts inds strip skip).getD v z4 =
      nrm ((accumulate verts inds strip skip).getD v z4) := by
  unfold calc_normals
  rw [List.getD_eq_getElem?_getD, List.getD_eq_getElem?_getD, List.getElem?_map]
  rcases h : (accumulate verts inds strip skip)[v]? with _ | w
  · simp [hz]
  · simp

/-- C3 (amended): after `calc_normals` with the zero-preserving `normalize`,
each vertex whose face-normal accumulator is nonzero receives a unit-length
normal (squared Euclidean length 1), and each vertex whose accumulator is
zero — in particular each vertex not referenced by the index sequence, which
no triangle can touch — receives the zero vector: zero accumulators remain
zero after the final normalization pass. -/
theorem calc_normals_unit_or_zero (verts : List (Vec3 ℝ)) (inds : List ℕ)
    (strip : Bool) (skip : List ℤ) (v : ℕ) :
    ((accumulate verts inds strip skip).getD v z4 ≠ z4 →
        sqnorm4 ((calc_normals normalize4 verts inds strip skip).getD v z4) = 1)
  ∧ ((accumulate verts inds strip skip).getD v z4 = z4 →
        (calc_normals normalize4 verts inds strip skip).getD v z4 = z4)
  ∧ (v ∉ inds → (accumulate verts inds strip skip).getD v z4 = z4) := by
  refine ⟨?_, ?_, accumulate_not_mem verts inds strip skip v⟩
  · intro hne
    rw [calc_normals_getD normalize4 normalize4_z4]
    exact sqnorm4_normalize4 _ hne
  · intro hz
    rw [calc_normals_getD normalize4 normalize4_z4, hz, normalize4_z4]

theorem accumulate_one_tri_eval :
    accumulate [((0:ℝ),0,0), (1,0,0), (0,1,0)] [0,1,2] false [] =
      [(0,0,-1,0), (0,0,-1,0), (0,0,-1,0)] := by
  have hp : tri_positions 3 3 = [0] := by decide
  show (List.foldl (norm_step _ _ _ _) _ (tri_positions 3 3)).1 = _
  rw [hp, List.foldl_cons, List.foldl_nil]
  norm_num [norm_step, sortSkip, ensure_vec4, cross4, sub4, add4, z4,
    List.replicate_succ, List.set_cons_zero, List.set_cons_succ]

theorem accumulate_two_tri_eval :
    accumulate [((0:ℝ),0,0), (1,0,0), (0,1,0)] [0,1,2,0,2,1] false [] =
      [z4, z4, z4] := by
  have hp : tri_positions 6 3 = [0, 3] := by decide
  show (List.foldl (norm_step _ _ _ _) _ (tri_positions 6 3)).1 = _
  rw [hp, List.foldl_cons, List.foldl_cons, List.foldl_nil]
  norm_num [norm_step, sortSkip, ensure_vec4, cross4, sub4, add4, z4,
    List.replicate_succ, List.set_cons_zero, List.set_cons_succ]

/-- C3 is false as stated: with the zero-preserving `normalize`, the vertex
array `[(0,0,0), (1,0,0), (0,1,0)]` and index list `[0,1,2, 0,2,1]` (triangle
list, empty skip list) give every vertex the zero normal — of squared length
0, not unit length — even though each of the three vertices is touched by
the non-degenerate, non-skipped triangle `(0,1,2)` (whose nonzero
contribution `(0,0,-1,0)` is exhibited by the single-triangle run): the two
oppositely wound triangles cancel in the accumulator, so a touched vertex
need not receive a unit-length normal. -/
theorem calc_normals_touched_zero_cex :
    calc_normals normalize4 [((0:ℝ),0,0), (1,0,0), (0,1,0)] [0,1,2,0,2,1] false []
      = [z4, z4, z4]
  ∧ sqnorm4 (z4 (K := ℝ)) = 0
  ∧ accumulate [((0:ℝ),0,0), (1,0,0), (0,1,0)] [0,1,2] false []
      = [(0,0,-1,0), (0,0,-1,0), (0,0,-1,0)]
  ∧ ((0,0,-1,0) : Vec4 ℝ) ≠ z4 := by
  refine ⟨?_, by norm_num [sqnorm4, z4], accumulate_one_tri_eval, by simp [z4, Prod.ext_iff]⟩
  unfold calc_normals
  rw [accumulate_two_tri_eval]
  simp [normalize4_z4]

theorem calc_normals_unit_or_zero_witness :
    sqnorm4 ((calc_normals normalize4 [((0:ℝ),0,0), (1,0,0), (0,1,0)] [0,1,2] false
      []).getD 0 z4) = 1 :=
  (calc_normals_unit_or_zero [((0:ℝ),0,0), (1,0,0), (0,1,0)] [0,1,2] false [] 0).1
    (by rw [accumulate_one_tri_eval]
        norm_num [z4, List.getD_cons_zero, Prod.ext_iff])

/-! Lemmas for claim C4: the triangle-list positions, congruence of the
triangle loop under irrelevant changes of the index list, and the
skip-versus-remove equivalence. -/

theorem filter_mod3_range (n : ℕ) :
    (List.range n).filter (fun i => i % 3 = 0) =
      (List.range ((n+2)/3)).map (fun q => 3*q) := by
  induction n with
  | zero => rfl
  | succ m ih =>
    rw [List.range_succ, List.filter_append, ih]
    rcases em (m % 3 = 0) with h3 | h3
    · have ha : (m+1+2)/3 = (m+2)/3 + 1 := by omega
      have hb : 3 * ((m+2)/3) = m := by omega
      rw [ha, List.range_succ, List.map_append]
      simp [h3, hb]
    · have ha : (m+1+2)/3 = (m+2)/3 := by omega
      simp [ha, h3]

theorem tri_positions_list (m : ℕ) :
    tri_positions m 3 = (List.range (m/3)).map (fun q => 3*q) := by
  rw [tri_positions, filter_mod3_range]
  congr 2
  omega

theorem getD_append_left {α : Type} (l l' : List α) (m : ℕ) (hm : m < l.length)
    (d : α) : (l ++ l').getD m d = l.getD m d := by
  rw [List.getD_eq_getElem?_getD, List.getD_eq_getElem?_getD,
    List.getElem?_append_left hm]

theorem getD_append_right {α : Type} (l l' : List α) (m : ℕ) (hm : l.length ≤ m)
    (d : α) : (l ++ l').getD m d = l'.getD (m - l.length) d := by
  rw [List.getD_eq_getElem?_getD, List.getD_eq_getElem?_getD,
    List.getElem?_append_right hm]

theorem foldl_congr_mem {β : Type} (f g : β → ℕ → β) (L : List ℕ)
    (h : ∀ st i, i ∈ L → f st i = g st i) :
    ∀ init, L.foldl f init = L.foldl g init := by
  induction L with
  | nil => intro init; rfl
  | cons a L ih =>
    intro init
    rw [List.foldl_cons, List.foldl_cons, h init a (List.mem_cons_self a L)]
    exact ih (fun st i hi => h st i (List.mem_cons_of_mem a hi)) _

theorem norm_step_append_irrel (verts : List (Vec3 K)) (inds tail : List ℕ)
    (strip : Bool) (skipArr : List ℤ) (st : List (Vec4 K) × ℕ) (i : ℕ)
    (hi : i + 2 < inds.length) :
    norm_step verts (inds ++ tail) strip skipArr st i =
      norm_step verts inds strip skipArr st i := by
  unfold norm_step
  rw [getD_append_left inds tail i (by omega) 0,
    getD_append_left inds tail (i+1) (by omega) 0,
    getD_append_left inds tail (i+2) (by omega) 0]

theorem norm_step_last_degenerate (verts : List (Vec3 K)) (inds : List ℕ)
    (j k l : ℕ) (hdeg : j = k ∨ k = l ∨ l = j) (strip : Bool) (skipArr : List ℤ)
    (st : List (Vec4 K) × ℕ) :
    (norm_step verts (inds ++ [j, k, l]) strip skipArr st inds.length).1 = st.1 := by
  unfold norm_step
  rcases em (skipArr.getD st.2 (-1) = (inds.length : ℤ)) with hs | hs
  · rw [if_pos hs]
  · rw [if_neg hs]
    have hj : (inds ++ [j, k, l]).getD inds.length 0 = j := by
      rw [getD_append_right _ _ _ (le_refl _), Nat.sub_self]; rfl
    have hk : (inds ++ [j, k, l]).getD (inds.length + 1) 0 = k := by
      rw [getD_append_right _ _ _ (by omega)]
      have he : inds.length + 1 - inds.length = 1 := by omega
      rw [he]; rfl
    have hl : (inds ++ [j, k, l]).getD (inds.length + 2) 0 = l := by
      rw [getD_append_right _ _ _ (by omega)]
      have he : inds.length + 2 - inds.length = 2 := by omega
      rw [he]; rfl
    rw [hj, hk, hl, if_pos hdeg]

/-- Part (a) of C4: appending an index-degenerate triangle to a
triangle-list index sequence leaves the output of `calc_normals`
unchanged. -/
theorem calc_normals_append_degenerate (nrm : Vec4 K → Vec4 K)
    (verts : List (Vec3 K)) (inds : List ℕ) (skip : List ℤ) (j k l : ℕ)
    (hdeg : j = k ∨ k = l ∨ l = j) (hlen : 3 ∣ inds.length) :
    calc_normals nrm verts (inds ++ [j, k, l]) false skip =
      calc_normals nrm verts inds false skip := by
  unfold calc_normals accumulate
  congr 1
  have hlen3 : (inds ++ [j, k, l]).length = inds.length + 3 := by simp
  rw [hlen3]
  rw [show (if (false = true) then 1 else 3) = 3 from rfl]
  rw [tri_positions_list, tri_positions_list]
  have hq : (inds.length + 3) / 3 = inds.length / 3 + 1 := by omega
  have h3q : 3 * (inds.length / 3) = inds.length := by omega
  rw [hq, List.range_succ, List.map_append, List.foldl_append]
  have hmem : ∀ st i, i ∈ (List.range (inds.length / 3)).map (fun q => 3*q) →
      norm_step verts (inds ++ [j, k, l]) false (sortSkip skip) st i =
        norm_step verts inds false (sortSkip skip) st i := by
    intro st i hi
    rw [List.mem_map] at hi
    obtain ⟨q, hq', rfl⟩ := hi
    rw [List.mem_range] at hq'
    exact norm_step_append_irrel verts inds [j, k, l] false (sortSkip skip) st _
      (by omega)
  rw [foldl_congr_mem _ _ _ hmem]
  simp only [List.map_cons, List.map_nil, List.foldl_cons, List.foldl_nil, h3q]
  exact norm_step_last_degenerate verts inds j k l hdeg false (sortSkip skip) _

theorem norm_step_cursor (verts : List (Vec3 K)) (inds : List ℕ) (strip : Bool)
    (skipArr : List ℤ) (st : List (Vec4 K) × ℕ) (i : ℕ)
    (h : ¬ skipArr.getD st.2 (-1) = (i : ℤ)) :
    (norm_step verts inds strip skipArr st i).2 = st.2 := by
  unfold norm_step
  rw [if_neg h]
  rcases em (inds.getD i 0 = inds.getD (i+1) 0 ∨ inds.getD (i+1) 0 = inds.getD (i+2) 0 ∨
      inds.getD (i+2) 0 = inds.getD i 0) with hd | hd
  · rw [if_pos hd]
  · rw [if_neg hd]

theorem norm_step_phase1 (verts : List (Vec3 K)) (inds inds' : List ℕ) (t : ℕ)
    (hagree : ∀ m, m < 3*t → inds.getD m 0 = inds'.getD m 0)
    (i : ℕ) (hi : i + 2 < 3*t) (N : List (Vec4 K)) :
    norm_step verts inds false [((3*t : ℕ) : ℤ), -1] (N, 0) i =
      norm_step verts inds' false [-1] (N, 0) i := by
  have h1 : ¬ ([((3*t : ℕ) : ℤ), -1].getD 0 (-1) = (i : ℤ)) := by
    simp only [List.getD_cons_zero]
    intro h
    omega
  have h2 : ¬ ([(-1 : ℤ)].getD 0 (-1) = (i : ℤ)) := by
    simp only [List.getD_cons_zero]
    intro h
    omega
  unfold norm_step
  rw [if_neg h1, if_neg h2,
    hagree i (by omega), hagree (i+1) (by omega), hagree (i+2) (by omega)]

theorem norm_fold_phase1 (verts : List (Vec3 K)) (inds inds' : List ℕ) (t : ℕ)
    (hagree : ∀ m, m < 3*t → inds.getD m 0 = inds'.getD m 0)
    (L : List ℕ) (hL : ∀ i ∈ L, i + 2 < 3*t) :
    ∀ N : List (Vec4 K),
      L.foldl (norm_step verts inds false [((3*t : ℕ) : ℤ), -1]) (N, 0) =
        L.foldl (norm_step verts inds' false [-1]) (N, 0) ∧
      (L.foldl (norm_step verts inds' false [-1]) (N, 0)).2 = 0 := by
  induction L with
  | nil => intro N; exact ⟨rfl, rfl⟩
  | cons i L ih =>
    intro N
    have hi := hL i (List.mem_cons_self i L)
    have hcur : (norm_step verts inds' false [-1] (N, 0) i).2 = 0 := by
      apply norm_step_cursor
      simp only [List.getD_cons_zero]
      intro h
      omega
    have hstep := norm_step_phase1 verts inds inds' t hagree i hi N
    obtain ⟨M, hM⟩ : ∃ M, norm_step verts inds' false [-1] (N, 0) i = (M, 0) :=
      ⟨(norm_step verts inds' false [-1] (N, 0) i).1, Prod.ext rfl hcur⟩
    have ihM := ih (fun p hp => hL p (List.mem_cons_of_mem i hp)) M
    constructor
    · rw [List.foldl_cons, List.foldl_cons, hstep, hM]
      exact ihM.1
    · rw [List.foldl_cons, hM]
      exact ihM.2

theorem norm_step_phase2 (verts : List (Vec3 K)) (inds inds' : List ℕ) (t : ℕ)
    (hagree : ∀ m, 3*t ≤ m → inds'.getD m 0 = inds.getD (m+3) 0)
    (i : ℕ) (hi : 3*t ≤ i) (N : List (Vec4 K)) :
    norm_step verts inds false [((3*t : ℕ) : ℤ), -1] (N, 1) (i+3) =
      ((norm_step verts inds' false [-1] (N, 0) i).1, 1) := by
  have h1 : ¬ ([((3*t : ℕ) : ℤ), -1].getD 1 (-1) = ((i+3 : ℕ) : ℤ)) := by
    simp only [List.getD_cons_succ, List.getD_cons_zero]
    intro h
    omega
  have h2 : ¬ ([(-1 : ℤ)].getD 0 (-1) = (i : ℤ)) := by
    simp only [List.getD_cons_zero]
    intro h
    omega
  unfold norm_step
  rw [if_neg h1, if_neg h2]
  have e1 : i + 3 + 1 = (i + 1) + 3 := by omega
  have e2 : i + 3 + 2 = (i + 2) + 3 := by omega
  rw [e1, e2, ← hagree i hi, ← hagree (i+1) (by omega), ← hagree (i+2) (by omega)]
  simp only [Bool.false_eq_true, false_and, if_false]
  rcases em (inds'.getD i 0 = inds'.getD (i+1) 0 ∨ inds'.getD (i+1) 0 = inds'.getD (i+2) 0 ∨
      inds'.getD (i+2) 0 = inds'.getD i 0) with hd | hd
  · rw [if_pos hd, if_pos hd]
  · rw [if_neg hd, if_neg hd]

theorem norm_fold_phase2 (verts : List (Vec3 K)) (inds inds' : List ℕ) (t : ℕ)
    (hagree : ∀ m, 3*t ≤ m → inds'.getD m 0 = inds.getD (m+3) 0)
    (S : List ℕ) :
    ∀ N : List (Vec4 K),
      ((S.map (fun s => 3*(t+1+s))).foldl
          (norm_step verts inds false [((3*t : ℕ) : ℤ), -1]) (N, 1)).1 =
        ((S.map (fun s => 3*(t+s))).foldl
          (norm_step verts inds' false [-1]) (N, 0)).1 := by
  induction S with
  | nil => intro N; rfl
  | cons s S ih =>
    intro N
    simp only [List.map_cons, List.foldl_cons]
    have e : 3*(t+1+s) = 3*(t+s) + 3 := by ring
    have hcur : (norm_step verts inds' false [-1] (N, 0) (3*(t+s))).2 = 0 := by
      apply norm_step_cursor
      simp only [List.getD_cons_zero]
      intro h
      omega
    obtain ⟨M, hM⟩ : ∃ M, norm_step verts inds' false [-1] (N, 0) (3*(t+s)) = (M, 0) :=
      ⟨(norm_step verts inds' false [-1] (N, 0) (3*(t+s))).1, Prod.ext rfl hcur⟩
    rw [e, norm_step_phase2 verts inds inds' t hagree (3*(t+s)) (by omega) N, hM]
    exact ih M

/-- Part (b) of C4: in triangle-list mode, skipping the triangle starting at
index position `3*t` produces the same output as removing that triangle's
three indices from the index sequence outright. -/
theorem calc_normals_skip_eq_remove (nrm : Vec4 K → Vec4 K)
    (verts : List (Vec3 K)) (inds : List ℕ) (t : ℕ) (ht : 3*t + 2 < inds.length) :
    calc_normals nrm verts inds false [((3*t : ℕ) : ℤ)] =
      calc_normals nrm verts (inds.take (3*t) ++ inds.drop (3*t+3)) false [] := by
  have htake : (inds.take (3*t)).length = 3*t := by
    rw [List.length_take]
    omega
  have hlen' : (inds.take (3*t) ++ inds.drop (3*t+3)).length = inds.length - 3 := by
    simp only [List.length_append, List.length_take, List.length_drop]
    omega
  have hagree1 : ∀ m, m < 3*t →
      inds.getD m 0 = (inds.take (3*t) ++ inds.drop (3*t+3)).getD m 0 := by
    intro m hm
    rw [getD_append_left _ _ _ (by omega), List.getD_eq_getElem?_getD,
      List.getD_eq_getElem?_getD, List.getElem?_take, if_pos hm]
  have hagree2 : ∀ m, 3*t ≤ m →
      (inds.take (3*t) ++ inds.drop (3*t+3)).getD m 0 = inds.getD (m+3) 0 := by
    intro m hm
    rw [getD_append_right _ _ _ (by omega), List.getD_eq_getElem?_getD,
      List.getD_eq_getElem?_getD, htake, List.getElem?_drop]
    have he : 3*t + 3 + (m - 3*t) = m + 3 := by omega
    rw [he]
  have hq : t < inds.length / 3 := by
    have h1 : (t+1) * 3 ≤ inds.length := by omega
    have h2 := (Nat.le_div_iff_mul_le (by norm_num : 0 < 3)).mpr h1
    omega
  unfold calc_normals accumulate
  congr 1
  rw [show sortSkip [((3*t : ℕ) : ℤ)] = [((3*t : ℕ) : ℤ), -1] from rfl,
    show sortSkip [] = [-1] from rfl, hlen',
    show (if (false = true) then 1 else 3) = 3 from rfl,
    tri_positions_list, tri_positions_list]
  obtain ⟨R, hR⟩ : ∃ R, inds.length / 3 - t - 1 = R := ⟨_, rfl⟩
  have hRid : (inds.length - 3) / 3 = t + R := by omega
  have hL : inds.length / 3 = (t + 1) + R := by omega
  rw [hRid, hL, List.range_add (t+1) R, List.range_add t R, List.range_succ t]
  have hcomp1 : ((fun q => 3*q) ∘ (fun b => t + 1 + b)) = (fun s => 3*(t+1+s)) := by
    funext s
    simp
  have hcomp2 : ((fun q => 3*q) ∘ (fun b => t + b)) = (fun s => 3*(t+s)) := by
    funext s
    simp
  simp only [List.map_append, List.map_map, List.foldl_append, List.map_cons,
    List.map_nil, List.foldl_cons, List.foldl_nil, hcomp1, hcomp2]
  -- phase 1: the common positions below 3*t
  have hP1 : ∀ i ∈ (List.range t).map (fun q => 3*q), i + 2 < 3*t := by
    intro i hi
    rw [List.mem_map] at hi
    obtain ⟨q, hq2, rfl⟩ := hi
    rw [List.mem_range] at hq2
    omega
  have h1 := norm_fold_phase1 verts inds (inds.take (3*t) ++ inds.drop (3*t+3)) t
    hagree1 ((List.range t).map (fun q => 3*q)) hP1
    (List.replicate verts.length z4)
  obtain ⟨M, hM⟩ : ∃ M,
      ((List.range t).map (fun q => 3*q)).foldl
        (norm_step verts (inds.take (3*t) ++ inds.drop (3*t+3)) false [-1])
        (List.replicate verts.length z4, 0) = (M, 0) :=
    ⟨_, Prod.ext rfl h1.2⟩
  rw [h1.1, hM]
  -- the skipped step at position 3*t advances only the skip cursor
  have hskipstep : norm_step verts inds false [((3*t : ℕ) : ℤ), -1] (M, 0) (3*t) =
      (M, 1) := by
    unfold norm_step
    rw [if_pos (by simp only [List.getD_cons_zero])]
  rw [hskipstep]
  -- phase 2: the remaining positions, shifted by 3
  exact norm_fold_phase2 verts inds (inds.take (3*t) ++ inds.drop (3*t+3)) t
    hagree2 (List.range R) M

/-- C4: in triangle-list mode, a triangle whose index triple contains a
repeated index contributes zero to normal accumulation (appending it leaves
the output of `calc_normals` unchanged), and calling `calc_normals` with a
skip list containing a triangle's start index produces output identical to
calling `calc_normals` on the index sequence with that triangle removed
outright. -/
theorem calc_normals_degenerate_and_skip (nrm : Vec4 K → Vec4 K)
    (verts : List (Vec3 K)) (inds : List ℕ) (skip : List ℤ) (j k l t : ℕ) :
    ((j = k ∨ k = l ∨ l = j) → 3 ∣ inds.length →
        calc_normals nrm verts (inds ++ [j, k, l]) false skip =
          calc_normals nrm verts inds false skip)
  ∧ (3*t + 2 < inds.length →
        calc_normals nrm verts inds false [((3*t : ℕ) : ℤ)] =
          calc_normals nrm verts (inds.take (3*t) ++ inds.drop (3*t+3)) false []) :=
  ⟨fun hdeg hlen => calc_normals_append_degenerate nrm verts inds skip j k l hdeg hlen,
   fun ht => calc_normals_skip_eq_remove nrm verts inds t ht⟩

theorem calc_normals_degenerate_and_skip_witness :
    calc_normals (K := ℚ) id [(0,0,0), (1,0,0), (0,1,0)] [0,1,2,0,0,1] false [] =
      calc_normals (K := ℚ) id [(0,0,0), (1,0,0), (0,1,0)] [0,1,2] false []
  ∧ calc_normals (K := ℚ) id [(0,0,0), (1,0,0), (0,1,0)] [0,1,2,0,2,1] false [(3 : ℤ)] =
      calc_normals (K := ℚ) id [(0,0,0), (1,0,0), (0,1,0)] [0,1,2] false [] :=
  ⟨(calc_normals_degenerate_and_skip id [(0,0,0), (1,0,0), (0,1,0)] [0,1,2] [] 0 0 1 0).1
      (Or.inl rfl) ⟨1, rfl⟩,
   (calc_normals_degenerate_and_skip id [(0,0,0), (1,0,0), (0,1,0)] [0,1,2,0,2,1] [] 0 0 1 1).2
      (by norm_num)⟩

/-! ## OBJ face-index resolution and vertex deduplication
(source: `src/tools.js`, lines 217-227 and 362-385)

OBJ data values are embedded over `ℚ` (parsed number literals).  The dedup
key built at line 219 concatenates the `toString`s of the position, the
texcoord (or the empty string) and the normal (or the empty string) with
`';'` separators; with the component counts fixed at 3/2/3 and numeric
strings containing neither `','` nor `';'`, that string is in bijection
with the triple `(v, t?, n?)`, so the key is embedded as that triple.  (The
`typeof t === "undefined"` conditional in the normal part of the key never
fires: `get_idx` is always called with all three arguments.) -/

/-- A 2-component vector over the OBJ data field. -/
abbrev Vec2Q := ℚ × ℚ

/-- A 3-component vector over the OBJ data field. -/
abbrev Vec3Q := ℚ × ℚ × ℚ

/-- The dedup key: position value, texcoord value or absent, normal value or
absent. -/
abbrev DedupKey := Vec3Q × Option Vec2Q × Option Vec3Q

/-- The output buffers and the dedup map of `load_obj`'s `obj_loader`:
`verts`, `texCoords`, `normals` (tools.js 213) and the `Map` (line 216),
embedded as an association list in insertion order. -/
structure ObjBufs where
  verts : List Vec3Q
  texCoords : List (Option Vec2Q)
  normals : List (Option Vec3Q)
  map : List (DedupKey × ℕ)

/-- `Map.has`/`Map.get` of the dedup map: first (and only) binding of the
key. -/
def findKey (m : List (DedupKey × ℕ)) (s : DedupKey) : Option ℕ :=
  match m with
  | [] => none
  | (k, i) :: rest => if k = s then some i else findKey rest s

/-- Embedding of `get_idx(v, t, n)` (tools.js 217-227): if the key has been
seen, its index is reused; otherwise the resolved values are appended to the
three parallel buffers and the key is bound to the new index
`verts.length`. -/
def get_idx (st : ObjBufs) (v : Vec3Q) (t : Option Vec2Q) (n : Option Vec3Q) :
    ℕ × ObjBufs :=
  let s : DedupKey := (v, t, n)
  match findKey st.map s with
  | some i => (i, st)
  | none =>
      (st.verts.length,
       { verts := st.verts ++ [v],
         texCoords := st.texCoords ++ [t],
         normals := st.normals ++ [n],
         map := st.map ++ [(s, st.verts.length)] })

/-- A sequence of further `get_idx` calls (one per face corner). -/
def run_get_idx (st : ObjBufs) (cs : List (Vec3Q × Option Vec2Q × Option Vec3Q)) :
    ObjBufs :=
  cs.foldl (fun st c => (get_idx st c.1 c.2.1 c.2.2).2) st

/-- Well-formedness of the output buffers: the three sequences are
index-aligned and every map binding points at the entries holding its key's
values. -/
def WFBufs (st : ObjBufs) : Prop :=
  st.texCoords.length = st.verts.length ∧
  st.normals.length = st.verts.length ∧
  ∀ e ∈ st.map, e.2 < st.verts.length ∧
    st.verts.getD e.2 (0,0,0) = e.1.1 ∧
    st.texCoords.getD e.2 none = e.1.2.1 ∧
    st.normals.getD e.2 none = e.1.2.2

theorem findKey_append_of_some (m m' : List (DedupKey × ℕ)) (s : DedupKey) (i : ℕ)
    (h : findKey m s = some i) : findKey (m ++ m') s = some i := by
  induction m with
  | nil => simp [findKey] at h
  | cons e rest ih =>
    rw [List.cons_append]
    unfold findKey at h ⊢
    rcases em (e.1 = s) with he | he
    · rw [if_pos he] at h ⊢
      exact h
    · rw [if_neg he] at h ⊢
      exact ih h

theorem findKey_append_self (m : List (DedupKey × ℕ)) (s : DedupKey) (i : ℕ)
    (h : findKey m s = none) : findKey (m ++ [(s, i)]) s = some i := by
  induction m with
  | nil => simp [findKey]
  | cons e rest ih =>
    rw [List.cons_append]
    unfold findKey at h ⊢
    rcases em (e.1 = s) with he | he
    · rw [if_pos he] at h
      exact absurd h (by simp)
    · rw [if_neg he] at h ⊢
      exact ih h

theorem findKey_some_mem (m : List (DedupKey × ℕ)) (s : DedupKey) (i : ℕ)
    (h : findKey m s = some i) : (s, i) ∈ m := by
  induction m with
  | nil => simp [findKey] at h
  | cons e rest ih =>
    obtain ⟨k, j⟩ := e
    unfold findKey at h
    rcases em (k = s) with he | he
    · rw [if_pos he] at h
      simp only [Option.some.injEq] at h
      subst he
      subst h
      exact List.mem_cons_self _ _
    · rw [if_neg he] at h
      exact List.mem_cons_of_mem _ (ih h)

theorem get_idx_key (st : ObjBufs) (v : Vec3Q) (t : Option Vec2Q)
    (n : Option Vec3Q) :
    findKey (get_idx st v t n).2.map (v, t, n) = some (get_idx st v t n).1 := by
  rcases h : findKey st.map (v, t, n) with _ | i
  · simp only [get_idx, h]
    exact findKey_append_self st.map (v, t, n) st.verts.length h
  · simp only [get_idx, h]

theorem get_idx_hit (st : ObjBufs) (v : Vec3Q) (t : Option Vec2Q)
    (n : Option Vec3Q) (i : ℕ) (h : findKey st.map (v, t, n) = some i) :
    get_idx st v t n = (i, st) := by
  simp only [get_idx, h]

theorem run_get_idx_findKey (s : DedupKey) (i : ℕ)
    (cs : List (Vec3Q × Option Vec2Q × Option Vec3Q)) :
    ∀ st : ObjBufs, findKey st.map s = some i →
      findKey (run_get_idx st cs).map s = some i := by
  induction cs with
  | nil => intro st h; exact h
  | cons c cs ih =>
    intro st h
    show findKey (run_get_idx (get_idx st c.1 c.2.1 c.2.2).2 cs).map s = some i
    apply ih
    rcases hf : findKey st.map (c.1, c.2.1, c.2.2) with _ | j
    · simp only [get_idx, hf]
      exact findKey_append_of_some st.map _ s i h
    · simp only [get_idx, hf]
      exact h

theorem get_idx_wf (st : ObjBufs) (hwf : WFBufs st) (v : Vec3Q)
    (t : Option Vec2Q) (n : Option Vec3Q) : WFBufs (get_idx st v t n).2 := by
  obtain ⟨htl, hnl, hmap⟩ := hwf
  rcases hf : findKey st.map (v, t, n) with _ | i
  · simp only [get_idx, hf]
    refine ⟨by simp [htl], by simp [hnl], ?_⟩
    intro e he
    rw [List.mem_append] at he
    rcases he with he | he
    · obtain ⟨hlt, hv, ht, hn⟩ := hmap e he
      refine ⟨by simp; omega, ?_, ?_, ?_⟩
      · rw [getD_append_left _ _ _ hlt]
        exact hv
      · rw [getD_append_left _ _ _ (by omega)]
        exact ht
      · rw [getD_append_left _ _ _ (by omega)]
        exact hn
    · rw [List.mem_singleton] at he
      subst he
      refine ⟨by simp, ?_, ?_, ?_⟩
      · rw [getD_append_right _ _ _ (le_refl _), Nat.sub_self]
        rfl
      · rw [getD_append_right _ _ _ (by omega), htl, Nat.sub_self]
        rfl
      · rw [getD_append_right _ _ _ (by omega), hnl, Nat.sub_self]
        rfl
  · simp only [get_idx, hf]
    exact ⟨htl, hnl, hmap⟩

/-- C8: in the vertex-deduplication indexer, any two face corners resolving
to the same (position, texcoord-or-absent, normal-or-absent) triple are
assigned the same output index — a later `get_idx` with the same triple, at
any distance, returns the index assigned first — and the output
position/texcoord/normal sequences stay index-aligned: the assigned index
is in range and refers to entries holding exactly the triple's values. -/
theorem get_idx_dedup_aligned (st : ObjBufs) (hwf : WFBufs st)
    (v : Vec3Q) (t : Option Vec2Q) (n : Option Vec3Q)
    (cs : List (Vec3Q × Option Vec2Q × Option Vec3Q)) :
    (get_idx (run_get_idx (get_idx st v t n).2 cs) v t n).1 = (get_idx st v t n).1
  ∧ WFBufs (get_idx st v t n).2
  ∧ (get_idx st v t n).1 < (get_idx st v t n).2.verts.length
  ∧ (get_idx st v t n).2.verts.getD (get_idx st v t n).1 (0,0,0) = v
  ∧ (get_idx st v t n).2.texCoords.getD (get_idx st v t n).1 none = t
  ∧ (get_idx st v t n).2.normals.getD (get_idx st v t n).1 none = n := by
  have hkey := get_idx_key st v t n
  have hwf' := get_idx_wf st hwf v t n
  have hmem := findKey_some_mem _ _ _ hkey
  obtain ⟨hlt, hv, ht, hn⟩ := hwf'.2.2 _ hmem
  refine ⟨?_, hwf', hlt, hv, ht, hn⟩
  have hrun := run_get_idx_findKey (v, t, n) (get_idx st v t n).1 cs _ hkey
  rw [get_idx_hit _ v t n _ hrun]

theorem get_idx_dedup_aligned_witness :
    (get_idx (run_get_idx (get_idx ⟨[], [], [], []⟩ (1, 2, 3) none none).2
        [((5, 5, 5), none, none), ((1, 2, 3), none, none)]) (1, 2, 3) none none).1 =
      (get_idx ⟨[], [], [], []⟩ (1, 2, 3) none none).1
  ∧ (get_idx ⟨[], [], [], []⟩ (1, 2, 3) none none).2.verts.getD
      (get_idx ⟨[], [], [], []⟩ (1, 2, 3) none none).1 (0,0,0) = (1, 2, 3) :=
  ⟨(get_idx_dedup_aligned ⟨[], [], [], []⟩
      ⟨rfl, rfl, fun e he => absurd he (List.not_mem_nil e)⟩ (1, 2, 3) none none
      [((5, 5, 5), none, none), ((1, 2, 3), none, none)]).1,
   (get_idx_dedup_aligned ⟨[], [], [], []⟩
      ⟨rfl, rfl, fun e he => absurd he (List.not_mem_nil e)⟩ (1, 2, 3) none none
      [((5, 5, 5), none, none), ((1, 2, 3), none, none)]).2.2.2.1⟩

/-! ## Face corner index resolution (source: `src/tools.js`, lines 362-385) -/

/-- Embedding of the per-corner index adjustment (tools.js 364-366): a
negative 1-based index is shifted by the current length of the list, a
positive one is decremented to 0-based. -/
def resolve_corner (len : ℕ) (x : ℤ) : ℤ :=
  if x < 0 then x + len else x - 1

/-- Embedding of the resolution and range check of a position-only face
`f a b c` (tools.js 362-366 and 380-385): the three corner indices are
resolved against the current vertex list length; the face is dropped
(`none`) when any resolved index is out of range. -/
def resolve_face_v (len : ℕ) (a b c : ℤ) : Option (ℤ × ℤ × ℤ) :=
  let a' := resolve_corner len a
  let b' := resolve_corner len b
  let c' := resolve_corner len c
  if 0 ≤ a' ∧ a' < len ∧ 0 ≤ b' ∧ b' < len ∧ 0 ≤ c' ∧ c' < len then
    some (a', b', c')
  else none

/-- C7: a negative 1-based corner index resolves relative to the current end
of the list — `-j` denotes the same 0-based index `len - j` as the positive
1-based index `len - j + 1` — and in particular, immediately after exactly 3
vertex definitions, the face `f -1 -2 -3` resolves to the same triangle
(the same three 0-based vertex indices, in the same order) as `f 3 2 1`,
namely `(2, 1, 0)`. -/
theorem negative_index_resolution (len j : ℕ) (h1 : 1 ≤ j) (h2 : j ≤ len) :
    resolve_corner len (-(j : ℤ)) = resolve_corner len ((len : ℤ) - j + 1)
  ∧ resolve_corner len (-(j : ℤ)) = (len : ℤ) - j
  ∧ resolve_face_v 3 (-1) (-2) (-3) = resolve_face_v 3 3 2 1
  ∧ resolve_face_v 3 3 2 1 = some (2, 1, 0) := by
  refine ⟨?_, ?_, by decide, by decide⟩
  · unfold resolve_corner
    rw [if_pos (by omega), if_neg (by omega)]
    omega
  · unfold resolve_corner
    rw [if_pos (by omega)]
    omega

theorem negative_index_resolution_witness :
    (1 ≤ 3 ∧ 3 ≤ 3) ∧ resolve_corner 3 (-(3 : ℤ)) = (3 : ℤ) - 3 :=
  ⟨⟨by norm_num, le_refl 3⟩, (negative_index_resolution 3 3 (by norm_num) (le_refl 3)).2.1⟩

/-! ## Asynchronous material/texture dependency resolver
(source: `src/tools.js`: `load_obj` lines 229-230, 275-289, 429-431;
`load_mtl` lines 449-493)

The mtllib handler pushes every requested filename onto the `mtls` array but
spawns a `load_mtl` only for names not already present; each spawned load —
on success after all its texture images have reported load or error, or
directly on failure — increments `loaded_mtls` and fires the terminal
callback when it equals `mtls.length`; if no material library was requested
the callback fires synchronously at the end of parsing.  Loads are embedded
as a trace of completion events processed in order (single-threaded event
loop: every event runs after parsing, and a texture event runs after the
parse of its mtl file, which is what spawned the image load). -/

/-- A completion event: the XHR load/error of a material-library file
(`ok := false` is the error path), or the load/error of the `i`-th texture
image of a material file. -/
inductive Ev where
  | mtl (name : ℕ) (ok : Bool)
  | tex (name : ℕ) (i : ℕ)
deriving DecidableEq

/-- The `mtls` array and the list of spawned loads after the parse loop, for
the flattened sequence `reqs` of mtllib filename arguments (tools.js
275-289): every name is pushed, a load is spawned only when the name is not
yet in `mtls`. -/
def mtl_requests (reqs : List ℕ) : List ℕ × List ℕ :=
  reqs.foldl (fun p m => (p.1 ++ [m], if m ∈ p.1 then p.2 else p.2 ++ [m])) ([], [])

/-- The distinct material-library files for which a load is spawned. -/
def spawned (reqs : List ℕ) : List ℕ := (mtl_requests reqs).2

/-- Resolver state: the `loaded_mtls` counter and `mtls.length` of
`load_obj`, the per-file `loaded_txts` counters of `load_mtl`, and the times
at which the terminal callback has fired. -/
structure ResolverState where
  loadedMtls : ℕ
  mtlsLen : ℕ
  loadedTxts : ℕ → ℕ
  fires : List ℕ

/-- A material file has finished (its `ondone` or `onerror` ran):
`++loaded_mtls === mtls.length` fires `finish_materials`, which calls the
terminal callback (tools.js 280-286, 256). -/
def bump_mtl (s : ResolverState) (time : ℕ) : ResolverState :=
  let lm := s.loadedMtls + 1
  { s with loadedMtls := lm,
           fires := if lm = s.mtlsLen then s.fires ++ [time] else s.fires }

/-- Processing one completion event at the given time.  `tex name` is the
number of texture references parsed out of material file `name`: an `mtl`
success with textures defers its `ondone` to the last texture event
(tools.js 476-487, 492-493); an `mtl` success without textures or an `mtl`
failure reports immediately; a texture event increments `loaded_txts` and
fires the file's `ondone` when the counter reaches `needed_txts`. -/
def resolver_step (tex : ℕ → ℕ) (st : ResolverState × ℕ) (e : Ev) :
    ResolverState × ℕ :=
  let s := st.1
  let time := st.2 + 1
  match e with
  | .mtl name ok =>
      if ok = true ∧ tex name ≠ 0 then (s, time)
      else (bump_mtl s time, time)
  | .tex name _ =>
      let cnt := s.loadedTxts name + 1
      let s' := { s with loadedTxts := fun m => if m = name then cnt else s.loadedTxts m }
      if cnt = tex name then (bump_mtl s' time, time) else (s', time)

/-- Running `load_obj` on an OBJ whose mtllib requests are `reqs`, followed
by the completion events of `tr` (in order, at times `1, 2, …`): the initial
state reflects the end of the parse loop, where the terminal callback has
already fired (at time 0) exactly when `mtls.length === 0`
(tools.js 429-431). -/
def objRun (reqs : List ℕ) (tex : ℕ → ℕ) (tr : List Ev) : ResolverState :=
  let init : ResolverState :=
    { loadedMtls := 0, mtlsLen := reqs.length, loadedTxts := fun _ => 0,
      fires := if reqs.length = 0 then [0] else [] }
  (tr.foldl (resolver_step tex) (init, 0)).1

/-- The traces of completion events that the single-threaded event loop can
produce: every event belongs to a spawned load; exactly one `mtl` event per
spawned file; a texture event exists exactly for the texture references of a
successfully loaded file, exactly once each, and only after its file's
`mtl` event (the parse of the mtl file is what starts the image load); a
failed file has no texture events. -/
def ValidTrace (reqs : List ℕ) (tex : ℕ → ℕ) (tr : List Ev) : Prop :=
  (∀ e ∈ tr, match e with
    | .mtl name _ => name ∈ spawned reqs
    | .tex name i => name ∈ spawned reqs ∧ i < tex name ∧ Ev.mtl name true ∈ tr ∧
        tr.indexOf (Ev.mtl name true) < tr.indexOf (Ev.tex name i))
  ∧ (∀ name ∈ spawned reqs,
      (tr.filter (fun e => match e with | .mtl m _ => m = name | _ => false)).length = 1)
  ∧ (∀ name ∈ spawned reqs, ∀ i < tex name,
      Ev.mtl name true ∈ tr → tr.count (Ev.tex name i) = 1)

/-- C1 is violated by the code: on an OBJ whose mtllib requests name the
same file twice, the load is correctly deduplicated (only one file is
spawned), but `mtls.length` still counts both pushes, so `loaded_mtls`
stops short of it and the terminal callback never fires — here the unique
valid trace (the single mtl file loads successfully, with no textures)
produces an empty list of firing times, where the claim requires exactly
one. -/
theorem duplicate_mtllib_never_completes :
    spawned [0, 0] = [0]
  ∧ ValidTrace [0, 0] (fun _ => 0) [Ev.mtl 0 true]
  ∧ (objRun [0, 0] (fun _ => 0) [Ev.mtl 0 true]).fires = []
  ∧ (objRun [0] (fun _ => 0) [Ev.mtl 0 true]).fires = [1] := by
  refine ⟨by decide, ?_, by decide, by decide⟩
  refine ⟨?_, by decide, by decide⟩
  intro e he
  rw [List.mem_singleton] at he
  subst he
  decide

/-- C9: for an OBJ with a single `mtllib` request whose material file
references exactly one texture, every completion schedule the event loop can
produce is the two-event trace `[mtl-file-loaded, texture-loaded]` (the
texture load is spawned by parsing the material file, so no other order is
achievable), and the OBJ terminal callback fires exactly once, at time 2 —
strictly after both the material file and its texture image have
individually reported completion. -/
theorem mtl_texture_gates_ondone (tex : ℕ → ℕ) (htex : tex 0 = 1) (tr : List Ev)
    (hv : ValidTrace [0] tex tr) (hok : Ev.mtl 0 true ∈ tr) :
    tr = [Ev.mtl 0 true, Ev.tex 0 0] ∧ (objRun [0] tex tr).fires = [2] := by
  obtain ⟨h1, h2, h3⟩ := hv
  have hsp : spawned [0] = [0] := by decide
  have hzero : (0 : ℕ) ∈ spawned [0] := by rw [hsp]; exact List.mem_singleton_self 0
  have hfilter : tr.filter
      (fun e => match e with | .mtl m _ => m = 0 | _ => false) = [Ev.mtl 0 true] := by
    have hlen := h2 0 hzero
    obtain ⟨x, hx⟩ := List.length_eq_one.mp hlen
    have hmem : Ev.mtl 0 true ∈ tr.filter
        (fun e => match e with | .mtl m _ => m = 0 | _ => false) :=
      List.mem_filter.mpr ⟨hok, by decide⟩
    rw [hx] at hmem
    rw [List.mem_singleton] at hmem
    rw [hx, hmem]
  have hall : ∀ e ∈ tr, e = Ev.mtl 0 true ∨ e = Ev.tex 0 0 := by
    intro e he
    rcases e with ⟨name, ok⟩ | ⟨name, i⟩
    · have hname : name ∈ spawned [0] := h1 _ he
      rw [hsp, List.mem_singleton] at hname
      subst hname
      rcases ok with _ | _
      · exfalso
        have hmemf : Ev.mtl 0 false ∈ tr.filter
            (fun e => match e with | .mtl m _ => m = 0 | _ => false) :=
          List.mem_filter.mpr ⟨he, by decide⟩
        rw [hfilter, List.mem_singleton] at hmemf
        exact absurd hmemf (by decide)
      · left
        rfl
    · obtain ⟨hname, hi, _, _⟩ := h1 _ he
      rw [hsp, List.mem_singleton] at hname
      subst hname
      have hi0 : i = 0 := by omega
      subst hi0
      right
      rfl
  have hcf : (tr.filter (fun e => match e with | .mtl m _ => m = 0 | _ => false)).count
      (Ev.mtl 0 true) = tr.count (Ev.mtl 0 true) := List.count_filter (by decide)
  rw [hfilter] at hcf
  have hc1 : tr.count (Ev.mtl 0 true) = 1 := by
    rw [← hcf]
    decide
  have hc2 : tr.count (Ev.tex 0 0) = 1 := h3 0 hzero 0 (by omega) hok
  have hperm : List.Perm tr [Ev.mtl 0 true, Ev.tex 0 0] := by
    rw [List.perm_iff_count]
    intro x
    rcases em (x = Ev.mtl 0 true) with rfl | hx1
    · rw [hc1]
      decide
    rcases em (x = Ev.tex 0 0) with rfl | hx2
    · rw [hc2]
      decide
    · have h0 : tr.count x = 0 := by
        rcases Nat.eq_zero_or_pos (tr.count x) with hz | hpos
        · exact hz
        · exfalso
          have hx := List.count_pos_iff.mp hpos
          rcases hall x hx with rfl | rfl
          · exact hx1 rfl
          · exact hx2 rfl
      rw [h0]
      symm
      rw [List.count_eq_zero]
      intro hmem
      rcases List.mem_cons.mp hmem with rfl | hmem2
      · exact hx1 rfl
      rcases List.mem_cons.mp hmem2 with rfl | hmem3
      · exact hx2 rfl
      · exact absurd hmem3 (List.not_mem_nil x)
  have hlen2 : tr.length = 2 := hperm.length_eq
  obtain ⟨x, y, hxy⟩ := List.length_eq_two.mp hlen2
  subst hxy
  have heq : [x, y] = [Ev.mtl 0 true, Ev.tex 0 0] := by
    rcases hall x (List.mem_cons_self x [y]) with rfl | rfl
    · rcases hall y (by simp) with rfl | rfl
      · exfalso
        exact absurd hc1 (by decide)
      · rfl
    · exfalso
      rcases hall y (by simp) with rfl | rfl
      · obtain ⟨_, _, _, hord⟩ := h1 (Ev.tex 0 0)
          (List.mem_cons_self (Ev.tex 0 0) [Ev.mtl 0 true])
        revert hord
        decide
      · exact absurd hok (by decide)
  refine ⟨heq, ?_⟩
  rw [heq]
  show ((resolver_step tex (resolver_step tex (_, 0) (Ev.mtl 0 true)) (Ev.tex 0 0)).1).fires = [2]
  simp only [resolver_step, bump_mtl, htex]
  norm_num

theorem mtl_texture_gates_ondone_witness :
    [Ev.mtl 0 true, Ev.tex 0 0] = [Ev.mtl 0 true, Ev.tex 0 0] ∧
    (objRun [0] (fun _ => 1) [Ev.mtl 0 true, Ev.tex 0 0]).fires = [2] :=
  mtl_texture_gates_ondone (fun _ => 1) rfl [Ev.mtl 0 true, Ev.tex 0 0]
    ⟨by
      intro e he
      rcases List.mem_cons.mp he with rfl | he2
      · decide
      · rcases List.mem_cons.mp he2 with rfl | he3
        · decide
        · exact absurd he3 (List.not_mem_nil e),
     by decide, by decide⟩
    (by decide)

end SodaCan
